import Mathlib

/-!
# diffcompress: the stretch encoder of `src/diffcompress.c`

A shallow embedding of the three encoder functions of `diffcompress.c`
(`encode_stretch_inner`, `encode_stretch`, `encode`) and theorems about them.

Conventions of the embedding.

* A byte is a `Nat` (a well-formed byte is `< 256`); the C expressions that are
  evaluated in `int` are evaluated in `Int` and truncated with `% 256` where the
  C code stores them into a `uint8_t`.
* A `const uint8_t *` that is only read is the list of the bytes found from it
  on: `data + k` is `data.drop k`; a length travels separately, as in C.
* The output memory is a function from cell index to byte, and an output pointer
  is an index into it, so that every store of the C code is a store of the model.
-/

namespace Diffcompress

/-! ## Memory model -/

/-- The output memory: cell index to byte. -/
abbrev Buf := Nat → Nat

/-- The assignment `out[i] = v` of C. -/
def store (out : Buf) (i v : Nat) : Buf :=
  fun j => if j = i then v else out j

/-- The call `memcpy(out + p, data, n)`: cells `p .. p+n-1` receive `data[0..n-1]`. -/
def memcpy (out : Buf) (p : Nat) (data : List Nat) (n : Nat) : Buf :=
  fun j => if p ≤ j ∧ j < p + n then data.getD (j - p) 0 else out j

/-- The cells `p .. p+n-1` of a memory, as a list. -/
def window (out : Buf) (p n : Nat) : List Nat :=
  (List.range n).map (fun k => out (p + k))

/-- Conversion of an `int` value to `uint8_t`. -/
def u8 (x : Int) : Nat := (x % 256).toNat

/-! ## The source functions -/

/-- The constant `ENCODED_BIT` of line 8. -/
def ENCODED_BIT : Nat := 0x80

/-- The constant `UINT8_MAX` of `stdint.h`. -/
def UINT8_MAX : Nat := 255

/-- The value `((data_ptr[0] - min) << 4) | (data_ptr[1] - min)` of line 19, as stored.
The operands are promoted to `int`; a negative difference is shifted as a
two's-complement value (`x << 4` is `x * 16`). `encode` never passes a minimum above a
byte it packs, so the differences it computes are not negative. -/
def pack_pair (a b min : Nat) : Nat :=
  u8 (Int.lor (((a : Int) - (min : Int)) <<< (4 : Int)) ((b : Int) - (min : Int)))

/-- The value `(data_ptr[0] - min) << 4` of line 25, as stored. -/
def pack_single (a min : Nat) : Nat :=
  u8 (((a : Int) - (min : Int)) <<< (4 : Int))

/-- The `while (length > 1)` loop of lines 18-23. The state is the read pointer
`data_ptr`, the memory, the write pointer `out_ptr` and `length`; the result is the
state at loop exit. -/
def pair_loop (min : Nat) : Nat → List Nat → Buf → Nat → List Nat × Buf × Nat × Nat
  | length + 2, data_ptr, out, out_ptr =>
      pair_loop min length (data_ptr.drop 2)
        (store out out_ptr (pack_pair (data_ptr.getD 0 0) (data_ptr.getD 1 0) min))
        (out_ptr + 1)
  | length, data_ptr, out, out_ptr => (data_ptr, out, out_ptr, length)

/-- The function `encode_stretch_inner` of lines 10-29. The output pointer `out` of C
is the index `o` into the memory `out`; the result is the memory after the call and
the returned size `out_ptr - out`. -/
def encode_stretch_inner (data : List Nat) (out : Buf) (o : Nat) (length min : Nat) :
    Buf × Nat :=
  let out1 := if length < 6 then memcpy out o data length else out
  let out2 := store out1 o (u8 (Int.lor (ENCODED_BIT : Int) (min : Int)))
  let out3 := store out2 (o + 1) length
  let s := pair_loop min length data out3 (o + 2)
  let data_ptr := s.1
  let out4 := s.2.1
  let out_ptr := s.2.2.1
  let length1 := s.2.2.2
  if length1 ≠ 0 then
    (store out4 out_ptr (pack_single (data_ptr.getD 0 0) min), out_ptr + 1 - o)
  else
    (out4, out_ptr - o)

/-- The `while (length > 0)` loop of lines 33-40, with a step bound `fuel`. The read
pointer `data` is the same in every iteration: the loop does not change it. The
result is the memory and the write pointer at loop exit. -/
def stretch_loop (data : List Nat) (min : Nat) : Nat → Buf → Nat → Nat → Buf × Nat
  | 0, out, out_ptr, _ => (out, out_ptr)
  | fuel + 1, out, out_ptr, length =>
      if length > 0 then
        let stretch_length := if length > UINT8_MAX then UINT8_MAX else length
        let r := encode_stretch_inner data out out_ptr (stretch_length % 256) min
        stretch_loop data min fuel r.1 (out_ptr + r.2) (length - stretch_length)
      else
        (out, out_ptr)

/-- The function `encode_stretch` of lines 31-42. Every iteration of its loop lowers
`length` by at least one, so `length` steps are enough (`stretch_loop_fuel`). -/
def encode_stretch (data : List Nat) (out : Buf) (o : Nat) (length min : Nat) :
    Buf × Nat :=
  let r := stretch_loop data min length out o length
  (r.1, r.2 - o)

/-- The state of the `for` loop of `encode`. -/
structure EncState where
  /-- The output memory. -/
  out : Buf
  /-- The write pointer `out_ptr`. -/
  out_ptr : Nat
  /-- The running minimum. -/
  minimum : Nat
  /-- The running maximum. -/
  maximum : Nat
  /-- The start of the open range. -/
  range_start : Nat
  /-- The loop index. -/
  i : Nat

/-- One iteration of the `for` loop of lines 53-67, reading `c = data[i]`. -/
def encode_step (data : List Nat) (s : EncState) : EncState :=
  let c := data.getD s.i 0
  let minimum := if c < s.minimum then c else s.minimum
  let maximum := if c > s.maximum then c else s.maximum
  if minimum + 15 < maximum then
    let r := encode_stretch (data.drop s.range_start) s.out s.out_ptr
      (s.i - s.range_start) minimum
    { out := r.1, out_ptr := s.out_ptr + r.2, minimum := c, maximum := c,
      range_start := s.i, i := s.i + 1 }
  else
    { s with minimum := minimum, maximum := maximum, i := s.i + 1 }

/-- The `for (; i < data_length; i++)` loop of lines 53-67: `n` is the number of
iterations still to run, `data_length - i`. -/
def encode_loop (data : List Nat) : Nat → EncState → EncState
  | 0, s => s
  | n + 1, s => encode_loop data n (encode_step data s)

/-- The function `encode` of lines 44-70, called with `out` at index `0` of the
memory and `data_length = data.length`. The result is the memory after the call and
the returned size. -/
def encode (data : List Nat) (out : Buf) : Buf × Nat :=
  if data.length = 0 then
    (out, 0)
  else
    let s := encode_loop data data.length
      { out := out, out_ptr := 0, minimum := data.getD 0 0, maximum := data.getD 0 0,
        range_start := 0, i := 0 }
    let r := encode_stretch (data.drop s.range_start) s.out s.out_ptr
      (data.length - s.range_start) s.minimum
    (r.1, s.out_ptr + r.2 - 0)

/-- The bytes that `encode` leaves in the first `S` cells of the memory, `S` being
its return value: the encoded line, as `main` hands it to `fwrite`. -/
def encode_output (data : List Nat) (out : Buf) : List Nat :=
  window (encode data out).1 0 (encode data out).2

/-- The memory `out` with the list `l` written from cell `p` on. -/
def splice (out : Buf) (p : Nat) (l : List Nat) : Buf :=
  fun j => if p ≤ j ∧ j < p + l.length then l.getD (j - p) 0 else out j

/-! ## What the functions write, as lists -/

/-- The bytes stored by `pair_loop`, in order. -/
def pair_bytes (min : Nat) : Nat → List Nat → List Nat
  | length + 2, data_ptr =>
      pack_pair (data_ptr.getD 0 0) (data_ptr.getD 1 0) min ::
        pair_bytes min length (data_ptr.drop 2)
  | _, _ => []

/-- The record that `encode_stretch_inner` leaves in memory: the two header bytes,
the bytes of the pair loop and, for an odd `length`, the byte of the last value. -/
def record (data : List Nat) (length min : Nat) : List Nat :=
  [u8 (Int.lor (ENCODED_BIT : Int) (min : Int)), length] ++ pair_bytes min length data ++
    (if length % 2 ≠ 0 then [pack_single ((data.drop (2 * (length / 2))).getD 0 0) min]
     else [])

/-- The values of `stretch_length` in the successive iterations of the loop of
`encode_stretch`, for a step bound `fuel`. -/
def chunk_lengths : Nat → Nat → List Nat
  | 0, _ => []
  | fuel + 1, length =>
      if length > 0 then
        let stretch_length := if length > UINT8_MAX then UINT8_MAX else length
        stretch_length :: chunk_lengths fuel (length - stretch_length)
      else []

/-- The bytes that `encode_stretch` leaves in memory: one record per iteration, each
built from the same read pointer. -/
def stretch_bytes (data : List Nat) (length min : Nat) : List Nat :=
  (chunk_lengths length length).flatMap (fun l => record data (l % 256) min)

/-! ## The calls that `encode` makes -/

/-- A call `encode_stretch(data + start, out_ptr, len, min)` made by `encode`. -/
structure StretchCall where
  /-- The offset added to `data`, the value of `range_start`. -/
  start : Nat
  /-- The length argument. -/
  len : Nat
  /-- The minimum argument. -/
  min : Nat
deriving DecidableEq

/-- The calls of `encode_stretch` that `encode` makes from a loop state on, in order:
`n` iterations of the `for` loop are still to run, and the call of line 68 comes last.
The control flow is that of `encode_step` and `encode_loop`. -/
def calls_from (data : List Nat) : Nat → Nat → Nat → Nat → Nat → List StretchCall
  | 0, minimum, _, range_start, _ =>
      [{ start := range_start, len := data.length - range_start, min := minimum }]
  | n + 1, minimum0, maximum0, range_start, i =>
      let c := data.getD i 0
      let minimum := if c < minimum0 then c else minimum0
      let maximum := if c > maximum0 then c else maximum0
      if minimum + 15 < maximum then
        { start := range_start, len := i - range_start, min := minimum } ::
          calls_from data n c c i (i + 1)
      else
        calls_from data n minimum maximum range_start (i + 1)

/-- The calls of `encode_stretch` that `encode` makes on a line, in order. -/
def encode_calls (data : List Nat) : List StretchCall :=
  if data.length = 0 then []
  else calls_from data data.length (data.getD 0 0) (data.getD 0 0) 0 0

/-- The bytes written by a list of calls of `encode_stretch`. -/
def calls_bytes (data : List Nat) (calls : List StretchCall) : List Nat :=
  calls.flatMap (fun c => stretch_bytes (data.drop c.start) c.len c.min)

/-- A call `encode_stretch_inner(data + start, out_ptr, len, min)` made through
`encode_stretch`: the read pointer, the `uint8_t` length and the minimum. -/
structure InnerCall where
  /-- The offset of the read pointer from the start of the line. -/
  start : Nat
  /-- The length argument, after its conversion to `uint8_t`. -/
  len : Nat
  /-- The minimum argument. -/
  min : Nat
deriving DecidableEq

/-- The calls of `encode_stretch_inner` that `encode` makes on a line, in order: for
each call of `encode_stretch`, one per iteration of its loop, all with the read
pointer that `encode_stretch` received. -/
def inner_calls (data : List Nat) : List InnerCall :=
  (encode_calls data).flatMap (fun c =>
    (chunk_lengths c.len c.len).map (fun l =>
      { start := c.start, len := l % 256, min := c.min }))

/-- The bytes that a call of `encode_stretch_inner` reads and packs: the first `len`
bytes from its read pointer. -/
def packed_bytes (data : List Nat) (c : InnerCall) : List Nat :=
  (data.drop c.start).take c.len

/-! ## Specification-side definitions -/

/-- The `j`-th nibble of a payload, the high nibble of each byte first. -/
def nibble (payload : List Nat) (j : Nat) : Nat :=
  if j % 2 = 0 then payload.getD (j / 2) 0 / 16 else payload.getD (j / 2) 0 % 16

/-- The inverse of the record format: records are read left to right; a record with
header byte `h`, length byte `L` and `ceil(L/2)` payload bytes gives `L` bytes, the
`j`-th being `(h & 0x7F)` plus the `j`-th payload nibble. `fuel` bounds the number of
records read. -/
def decode : Nat → List Nat → List Nat
  | fuel + 1, h :: L :: rest =>
      (List.range L).map (fun j => (h &&& 0x7F) + nibble rest j) ++
        decode fuel (rest.drop ((L + 1) / 2))
  | _, _ => []

/-- The chunking of a range as the specification words it: up to 255 bytes are sliced
off the front of what remains, and each slice becomes one record. `fuel` bounds the
number of slices. -/
def slice_records : Nat → List Nat → Nat → Nat → List Nat
  | 0, _, _, _ => []
  | fuel + 1, data, length, min =>
      if length > 0 then
        let l := if length > 255 then 255 else length
        record (data.take l) l min ++ slice_records fuel (data.drop l) (length - l) min
      else []

/-- Payload byte `k` of a record as the specification words it, for a slice `d` and
a minimum `m`: `((d[2k]-m) << 4) | (d[2k+1]-m)` for a full pair, `(d[L-1]-m) << 4` for
the last byte of a slice of odd length. -/
def payload_byte (d : List Nat) (m k : Nat) : Nat :=
  if 2 * k + 1 < d.length then
    ((d.getD (2 * k) 0 - m) <<< 4) ||| (d.getD (2 * k + 1) 0 - m)
  else
    (d.getD (d.length - 1) 0 - m) <<< 4

/-- The ranges of a list of calls are non-empty and laid end to end from index `a`
to index `b`: the first starts at `a`, each next one starts where the one before it
ends, and the last ends at `b`. -/
def covers : Nat → List StretchCall → Nat → Prop
  | a, [], b => a = b
  | a, c :: cs, b => c.start = a ∧ 0 < c.len ∧ covers (a + c.len) cs b

instance covers_decidable : ∀ (a : Nat) (cs : List StretchCall) (b : Nat),
    Decidable (covers a cs b)
  | a, [], b => inferInstanceAs (Decidable (a = b))
  | a, c :: cs, b =>
      have := covers_decidable (a + c.len) cs b
      inferInstanceAs (Decidable (c.start = a ∧ 0 < c.len ∧ covers (a + c.len) cs b))

/-- A record read back from an encoded line. -/
structure Record where
  /-- Header byte 0. -/
  header : Nat
  /-- Header byte 1, the length field. -/
  length : Nat
  /-- The `ceil(length/2)` payload bytes. -/
  payload : List Nat
deriving DecidableEq

/-- The reading of an encoded line as a sequence of records, each a 2-byte header
followed by `ceil(length/2)` payload bytes. The result is `none` when the bytes do
not end with the end of a record; `fuel` bounds the number of records read. -/
def parse_records : Nat → List Nat → Option (List Record)
  | _, [] => some []
  | 0, _ :: _ => none
  | _ + 1, [_] => none
  | fuel + 1, h :: L :: rest =>
      if (L + 1) / 2 ≤ rest.length then
        (parse_records fuel (rest.drop ((L + 1) / 2))).map
          (fun rs => { header := h, length := L, payload := rest.take ((L + 1) / 2) } :: rs)
      else none

/-- The record that a call of `encode_stretch_inner` writes, read back. -/
def call_record (data : List Nat) (c : InnerCall) : Record :=
  { header := u8 (Int.lor (ENCODED_BIT : Int) (c.min : Int)),
    length := c.len,
    payload := (record (data.drop c.start) c.len c.min).drop 2 }

/-- The line of length `n` whose bytes alternate between 0 and 16, starting with 0. -/
def alternating (n : Nat) : List Nat :=
  (List.range n).map (fun i => if i % 2 = 0 then 0 else 16)

/-! ## The caller, and further specification-side definitions -/

/-- The line terminator, the byte `'\n'`. -/
def LINE_TERMINATOR : Nat := 10

/-- Modelled from the spec: the line reader `getline` of the C library, which `main`
calls and which is not part of the repository. The bytes of the file are split after
each line terminator: every line but possibly the last ends with its terminator, a
last line without terminator is returned when it has content, and no line is
empty. -/
def split_lines : List Nat → List (List Nat)
  | [] => []
  | b :: rest =>
      if b = LINE_TERMINATOR then [b] :: split_lines rest
      else
        match split_lines rest with
        | [] => [[b]]
        | l :: ls => (b :: l) :: ls

/-- The `while (1)` loop of `main`, lines 85-93, over the lines that `getline` returns.
For each line of `line_length` bytes, line 87 gives the output buffer `line_length`
bytes, and `encode` is called with `data_length = line_length - 1` (it reads the first
`data_length` bytes from its read pointer and no other). `encode` stores into the
cells `0 .. encoded_size - 1`; when `encoded_size` exceeds `line_length` it stores past
the end of the buffer, the behaviour of the program is undefined, and the result is
`none`. Otherwise the first `encoded_size` bytes of the buffer go to `stdout` and the
loop goes on with the memory as `encode` left it. `realloc` is taken to succeed. -/
def main_loop : List (List Nat) → Buf → List Nat → Option (List Nat)
  | [], _, stdout => some stdout
  | line :: rest, out_buffer, stdout =>
      let r := encode (line.take (line.length - 1)) out_buffer
      if r.2 ≤ line.length then
        main_loop rest r.1 (stdout ++ window r.1 0 r.2)
      else
        none

/-- The bytes that `main` writes to `stdout` for a file with the given bytes, the
output buffer starting with the memory `out_buffer`; `none` when a call of `encode`
stores past the end of the output buffer. -/
def main_output (file : List Nat) (out_buffer : Buf) : Option (List Nat) :=
  main_loop (split_lines file) out_buffer []

/-- A line with its terminator removed, when it ends with one. -/
def strip_terminator (line : List Nat) : List Nat :=
  if line.getLast? = some LINE_TERMINATOR then line.dropLast else line

/-- The output of the program as the specification words it: the concatenation, in
order, of the encoded lines, each without its terminator. -/
def lines_output (file : List Nat) (out : Buf) : List Nat :=
  (split_lines file).flatMap (fun line => encode_output (strip_terminator line) out)

/-- The variant of `encode_stretch_inner` with the raw copy of lines 11-13
(`if (length < 6) memcpy(out, data, length)`) removed, and nothing else changed. -/
def encode_stretch_inner_nocopy (data : List Nat) (out : Buf) (o : Nat) (length min : Nat) :
    Buf × Nat :=
  let out2 := store out o (u8 (Int.lor (ENCODED_BIT : Int) (min : Int)))
  let out3 := store out2 (o + 1) length
  let s := pair_loop min length data out3 (o + 2)
  let data_ptr := s.1
  let out4 := s.2.1
  let out_ptr := s.2.2.1
  let length1 := s.2.2.2
  if length1 ≠ 0 then
    (store out4 out_ptr (pack_single (data_ptr.getD 0 0) min), out_ptr + 1 - o)
  else
    (out4, out_ptr - o)

/-! ## Memory lemmas -/

theorem splice_nil (out : Buf) (p : Nat) : splice out p [] = out := by
  funext j
  simp [splice]

theorem store_eq_splice (out : Buf) (i v : Nat) : store out i v = splice out i [v] := by
  funext j
  unfold store splice
  by_cases h : j = i
  · subst h; simp
  · have : ¬ (i ≤ j ∧ j < i + [v].length) := by simp; omega
    rw [if_neg h, if_neg this]

theorem splice_append (out : Buf) (p : Nat) (a b : List Nat) :
    splice (splice out p a) (p + a.length) b = splice out p (a ++ b) := by
  funext j
  unfold splice
  simp only [List.length_append]
  by_cases h1 : p + a.length ≤ j ∧ j < p + a.length + b.length
  · have h2 : p ≤ j ∧ j < p + (a.length + b.length) := by omega
    rw [if_pos h1, if_pos h2]
    have h3 : a.length ≤ j - p := by omega
    rw [List.getD_append_right _ _ _ _ h3]
    congr 1
    omega
  · rw [if_neg h1]
    by_cases h2 : p ≤ j ∧ j < p + a.length
    · have h3 : p ≤ j ∧ j < p + (a.length + b.length) := by omega
      rw [if_pos h2, if_pos h3]
      rw [List.getD_append _ _ _ _ (by omega)]
    · have h3 : ¬ (p ≤ j ∧ j < p + (a.length + b.length)) := by omega
      rw [if_neg h2, if_neg h3]

theorem splice_cover (out : Buf) (p : Nat) (a b : List Nat) (h : a.length ≤ b.length) :
    splice (splice out p a) p b = splice out p b := by
  funext j
  unfold splice
  by_cases h1 : p ≤ j ∧ j < p + b.length
  · rw [if_pos h1, if_pos h1]
  · have h2 : ¬ (p ≤ j ∧ j < p + a.length) := by omega
    rw [if_neg h1, if_neg h1, if_neg h2]

theorem memcpy_eq_splice (out : Buf) (p : Nat) (data : List Nat) (n : Nat) :
    memcpy out p data n = splice out p ((List.range n).map (fun k => data.getD k 0)) := by
  funext j
  unfold memcpy splice
  simp only [List.length_map, List.length_range]
  by_cases h1 : p ≤ j ∧ j < p + n
  · rw [if_pos h1, if_pos h1]
    have h2 : j - p < n := by omega
    simp [List.getD_eq_getElem?_getD, List.getElem?_map, List.getElem?_range h2]
  · rw [if_neg h1, if_neg h1]

theorem window_splice (out : Buf) (p : Nat) (l : List Nat) :
    window (splice out p l) p l.length = l := by
  apply List.ext_getElem
  · simp [window]
  · intro n h1 h2
    simp only [window, List.getElem_map, List.getElem_range, splice]
    have : p ≤ p + n ∧ p + n < p + l.length := by omega
    rw [if_pos this]
    rw [List.getD_eq_getElem _ _ (by omega)]
    simp

theorem splice_outside (out : Buf) (p : Nat) (l : List Nat) (j : Nat)
    (h : j < p ∨ p + l.length ≤ j) : splice out p l j = out j := by
  unfold splice
  have : ¬ (p ≤ j ∧ j < p + l.length) := by omega
  rw [if_neg this]

/-! ## The inner packer -/

theorem pair_bytes_length (min : Nat) : ∀ (length : Nat) (d : List Nat),
    (pair_bytes min length d).length = length / 2
  | 0, _ => by simp [pair_bytes]
  | 1, _ => by simp [pair_bytes]
  | n + 2, d => by
      simp only [pair_bytes, List.length_cons, pair_bytes_length min n (d.drop 2)]
      omega

theorem pair_loop_eq (min : Nat) : ∀ (length : Nat) (d : List Nat) (out : Buf) (q : Nat),
    pair_loop min length d out q =
      (d.drop (2 * (length / 2)), splice out q (pair_bytes min length d),
        q + length / 2, length % 2)
  | 0, d, out, q => by simp [pair_loop, pair_bytes, splice_nil]
  | 1, d, out, q => by simp [pair_loop, pair_bytes, splice_nil]
  | n + 2, d, out, q => by
      rw [pair_loop, pair_loop_eq min n (d.drop 2), pair_bytes, store_eq_splice]
      have h := splice_append out q [pack_pair (d.getD 0 0) (d.getD 1 0) min]
        (pair_bytes min n (d.drop 2))
      simp only [List.length_singleton, List.singleton_append] at h
      rw [h]
      have e1 : (n + 2) / 2 = n / 2 + 1 := by omega
      have e2 : (n + 2) % 2 = n % 2 := by omega
      rw [e1, e2, List.drop_drop]
      have e3 : 2 + 2 * (n / 2) = 2 * (n / 2 + 1) := by omega
      have e4 : q + 1 + n / 2 = q + (n / 2 + 1) := by omega
      rw [e3, e4]

theorem record_length (data : List Nat) (length min : Nat) :
    (record data length min).length = 2 + length / 2 + length % 2 := by
  unfold record
  by_cases h : length % 2 ≠ 0
  · rw [if_pos h]
    simp [pair_bytes_length]
    omega
  · rw [if_neg h]
    simp [pair_bytes_length]
    omega

theorem encode_stretch_inner_eq (data : List Nat) (out : Buf) (o : Nat) (length min : Nat) :
    encode_stretch_inner data out o length min =
      (splice out o (record data length min), (record data length min).length) := by
  have hlen := record_length data length min
  have hpre : ∀ out1 : Buf,
      splice out1 o (record data length min) = splice out o (record data length min) →
      (let out2 := store out1 o (u8 (Int.lor (ENCODED_BIT : Int) (min : Int)))
       let out3 := store out2 (o + 1) length
       let s := pair_loop min length data out3 (o + 2)
       if s.2.2.2 ≠ 0 then
         (store s.2.1 s.2.2.1 (pack_single (s.1.getD 0 0) min), s.2.2.1 + 1 - o)
       else (s.2.1, s.2.2.1 - o)) =
      (splice out o (record data length min), (record data length min).length) := by
    intro out1 hcov
    simp only [pair_loop_eq, store_eq_splice]
    have h1 := splice_append out1 o [u8 (Int.lor (ENCODED_BIT : Int) (min : Int))] [length]
    simp only [List.length_singleton] at h1
    rw [h1]
    have h2 := splice_append out1 o
      ([u8 (Int.lor (ENCODED_BIT : Int) (min : Int))] ++ [length]) (pair_bytes min length data)
    simp only [List.length_append, List.length_singleton] at h2
    rw [h2]
    by_cases hodd : length % 2 ≠ 0
    · rw [if_pos hodd]
      have h3 := splice_append out1 o
        ([u8 (Int.lor (ENCODED_BIT : Int) (min : Int))] ++ [length] ++ pair_bytes min length data)
        [pack_single ((data.drop (2 * (length / 2))).getD 0 0) min]
      simp only [List.length_append, List.length_singleton, pair_bytes_length] at h3
      have e : o + 2 + length / 2 = o + (1 + 1 + length / 2) := by omega
      rw [e, h3, hlen]
      have hrec : record data length min =
          [u8 (Int.lor (ENCODED_BIT : Int) (min : Int))] ++ [length] ++
            pair_bytes min length data ++
            [pack_single ((data.drop (2 * (length / 2))).getD 0 0) min] := by
        unfold record
        rw [if_pos hodd]
        simp
      rw [← hrec, hcov]
      congr 1
      omega
    · rw [if_neg hodd]
      have hrec : record data length min =
          [u8 (Int.lor (ENCODED_BIT : Int) (min : Int))] ++ [length] ++
            pair_bytes min length data := by
        unfold record
        rw [if_neg hodd]
        simp
      rw [← hrec, hcov, hlen]
      congr 1
      omega
  unfold encode_stretch_inner
  by_cases h6 : length < 6
  · simp only [if_pos h6]
    apply hpre
    rw [memcpy_eq_splice]
    apply splice_cover
    simp only [List.length_map, List.length_range, hlen]
    omega
  · simp only [if_neg h6]
    exact hpre out rfl
/-! ## The chunking loop -/

theorem chunk_lengths_fuel : ∀ (fuel length : Nat), length ≤ fuel →
    chunk_lengths fuel length = chunk_lengths length length
  | 0, length, h => by
      have : length = 0 := by omega
      subst this
      rfl
  | fuel + 1, 0, _ => by simp [chunk_lengths]
  | fuel + 1, length + 1, h => by
      have h1 : 1 ≤ (if length + 1 > UINT8_MAX then UINT8_MAX else length + 1) := by
        split <;> simp [UINT8_MAX]
      have h2 : (if length + 1 > UINT8_MAX then UINT8_MAX else length + 1) ≤ length + 1 := by
        split <;> omega
      simp only [chunk_lengths, gt_iff_lt, Nat.zero_lt_succ, if_true]
      congr 1
      rw [chunk_lengths_fuel fuel _ (by simp only [gt_iff_lt] at h1 h2; omega)]
      rw [chunk_lengths_fuel length _ (by simp only [gt_iff_lt] at h1 h2; omega)]

theorem stretch_loop_eq (data : List Nat) (min : Nat) : ∀ (fuel : Nat) (out : Buf)
    (q length : Nat),
    stretch_loop data min fuel out q length =
      (splice out q ((chunk_lengths fuel length).flatMap (fun l => record data (l % 256) min)),
        q + ((chunk_lengths fuel length).flatMap (fun l => record data (l % 256) min)).length)
  | 0, out, q, length => by simp [stretch_loop, chunk_lengths, splice_nil]
  | fuel + 1, out, q, length => by
      unfold stretch_loop chunk_lengths
      by_cases h : length > 0
      · simp only [if_pos h, encode_stretch_inner_eq, List.flatMap_cons, List.length_append]
        rw [stretch_loop_eq data min fuel, splice_append]
        simp only [Nat.add_assoc]
      · simp [if_neg h, splice_nil]

/-- The step bound of `encode_stretch` is never reached: any larger bound gives the
same final state, and the loop is left with `length = 0`. -/
theorem stretch_loop_fuel (data : List Nat) (min : Nat) (fuel : Nat) (out : Buf)
    (q length : Nat) (h : length ≤ fuel) :
    stretch_loop data min fuel out q length = stretch_loop data min length out q length := by
  rw [stretch_loop_eq, stretch_loop_eq, chunk_lengths_fuel fuel length h]

theorem encode_stretch_eq (data : List Nat) (out : Buf) (o : Nat) (length min : Nat) :
    encode_stretch data out o length min =
      (splice out o (stretch_bytes data length min), (stretch_bytes data length min).length) := by
  unfold encode_stretch stretch_bytes
  simp only [stretch_loop_eq]
  congr 1
  omega

/-! ## The partitioning loop -/

theorem encode_loop_eq (data : List Nat) : ∀ (n : Nat) (s : EncState),
    (let t := encode_loop data n s
     let r := encode_stretch (data.drop t.range_start) t.out t.out_ptr
       (data.length - t.range_start) t.minimum
     (r.1, t.out_ptr + r.2)) =
    (splice s.out s.out_ptr
        (calls_bytes data (calls_from data n s.minimum s.maximum s.range_start s.i)),
      s.out_ptr +
        (calls_bytes data (calls_from data n s.minimum s.maximum s.range_start s.i)).length)
  | 0, s => by
      simp [encode_loop, calls_from, calls_bytes, encode_stretch_eq]
  | n + 1, s => by
      have ih := encode_loop_eq data n (encode_step data s)
      simp only [encode_loop]
      simp only at ih
      rw [ih]
      unfold encode_step
      simp only [calls_from]
      by_cases hb : (if data.getD s.i 0 < s.minimum then data.getD s.i 0 else s.minimum) + 15 <
          (if data.getD s.i 0 > s.maximum then data.getD s.i 0 else s.maximum)
      · simp only [gt_iff_lt] at hb
        simp only [gt_iff_lt, if_pos hb, encode_stretch_eq, calls_bytes, List.flatMap_cons,
          List.length_append]
        rw [splice_append]
        simp only [Nat.add_assoc]
      · simp only [gt_iff_lt] at hb
        simp only [gt_iff_lt, if_neg hb]

theorem encode_eq (data : List Nat) (out : Buf) :
    encode data out =
      (splice out 0 (calls_bytes data (encode_calls data)),
        (calls_bytes data (encode_calls data)).length) := by
  unfold encode encode_calls
  by_cases h : data.length = 0
  · rw [if_pos h, if_pos h]
    simp [calls_bytes, splice_nil]
  · simp only [if_neg h]
    have := encode_loop_eq data data.length
      { out := out, out_ptr := 0, minimum := data.getD 0 0, maximum := data.getD 0 0,
        range_start := 0, i := 0 }
    simp only [Nat.zero_add] at this
    simp only [Nat.sub_zero]
    exact this

theorem encode_output_eq (data : List Nat) (out : Buf) :
    encode_output data out = calls_bytes data (encode_calls data) := by
  unfold encode_output
  rw [encode_eq]
  exact window_splice out 0 _
/-! ## Nibble arithmetic -/

theorem u8_natCast (n : Nat) : u8 (n : Int) = n % 256 := by
  unfold u8
  have : ((n : Int) % 256) = ((n % 256 : Nat) : Int) := by simp
  rw [this, Int.toNat_natCast]

theorem int_lor_natCast (a b : Nat) : Int.lor (a : Int) (b : Int) = ((a ||| b : Nat) : Int) := rfl

theorem pack_pair_nat (a b m : Nat) (ha : m ≤ a) (hb : m ≤ b) :
    pack_pair a b m = (((a - m) <<< 4) ||| (b - m)) % 256 := by
  unfold pack_pair
  rw [← Int.ofNat_sub ha, ← Int.ofNat_sub hb]
  have h4 : (4 : Int) = ((4 : Nat) : Int) := rfl
  rw [h4, Int.shiftLeft_coe_nat, int_lor_natCast, u8_natCast]

theorem pack_single_nat (a m : Nat) (ha : m ≤ a) :
    pack_single a m = ((a - m) <<< 4) % 256 := by
  unfold pack_single
  rw [← Int.ofNat_sub ha]
  have h4 : (4 : Int) = ((4 : Nat) : Int) := rfl
  rw [h4, Int.shiftLeft_coe_nat, u8_natCast]

theorem nibbles_lt : ∀ x < 16, ∀ y < 16, ((x <<< 4) ||| y) < 256 := by decide

theorem header_nat (m : Nat) (hm : m < 256) :
    u8 (Int.lor (ENCODED_BIT : Int) (m : Int)) = 0x80 ||| m := by
  rw [int_lor_natCast, u8_natCast]
  apply Nat.mod_eq_of_lt
  exact Nat.or_lt_two_pow (n := 8) (by simp [ENCODED_BIT]) hm
/-! ## The record format -/

theorem pair_bytes_eq_map (min : Nat) : ∀ (length : Nat) (data : List Nat),
    pair_bytes min length data =
      (List.range (length / 2)).map
        (fun k => pack_pair (data.getD (2 * k) 0) (data.getD (2 * k + 1) 0) min)
  | 0, _ => by simp [pair_bytes]
  | 1, _ => by simp [pair_bytes]
  | n + 2, data => by
      have e1 : (n + 2) / 2 = n / 2 + 1 := by omega
      rw [pair_bytes, pair_bytes_eq_map min n (data.drop 2), e1, List.range_succ_eq_map]
      simp only [List.map_cons, List.map_map, Nat.mul_zero, Nat.zero_add]
      congr 1
      apply List.map_congr_left
      intro k _
      simp only [Function.comp, List.getD_eq_getElem?_getD, List.getElem?_drop]
      have e2 : 2 + 2 * k = 2 * (k + 1) := by omega
      have e3 : 2 + (2 * k + 1) = 2 * (k + 1) + 1 := by omega
      rw [e2, e3]

theorem record_payload (d rest : List Nat) (m : Nat)
    (hwin : ∀ b ∈ d, m ≤ b ∧ b ≤ m + 15) :
    record (d ++ rest) d.length m =
      [u8 (Int.lor (ENCODED_BIT : Int) (m : Int)), d.length] ++
        (List.range ((d.length + 1) / 2)).map (payload_byte d m) := by
  have hget : ∀ i, i < d.length → (d ++ rest).getD i 0 = d.getD i 0 := by
    intro i hi
    exact List.getD_append d rest 0 i hi
  have hmem : ∀ i, i < d.length → m ≤ d.getD i 0 ∧ d.getD i 0 ≤ m + 15 := by
    intro i hi
    rw [List.getD_eq_getElem d 0 hi]
    exact hwin _ (List.getElem_mem hi)
  have hpairs : ∀ k, k < d.length / 2 →
      pack_pair ((d ++ rest).getD (2 * k) 0) ((d ++ rest).getD (2 * k + 1) 0) m =
        payload_byte d m k := by
    intro k hk
    have h1 : 2 * k + 1 < d.length := by omega
    rw [hget _ (by omega), hget _ h1]
    have ha := hmem (2 * k) (by omega)
    have hb := hmem (2 * k + 1) h1
    rw [pack_pair_nat _ _ _ ha.1 hb.1]
    unfold payload_byte
    rw [if_pos h1]
    exact Nat.mod_eq_of_lt (nibbles_lt _ (by omega) _ (by omega))
  unfold record
  rw [List.append_assoc, pair_bytes_eq_map]
  congr 1
  by_cases hodd : d.length % 2 ≠ 0
  · rw [if_pos hodd]
    have e1 : (d.length + 1) / 2 = d.length / 2 + 1 := by omega
    rw [e1, List.range_succ, List.map_append, List.map_singleton]
    congr 1
    · apply List.map_congr_left
      intro k hk
      exact hpairs k (List.mem_range.mp hk)
    · have e2 : 2 * (d.length / 2) = d.length - 1 := by omega
      have h1 : ¬ (2 * (d.length / 2) + 1 < d.length) := by omega
      have hlast : ((d ++ rest).drop (2 * (d.length / 2))).getD 0 0 = d.getD (d.length - 1) 0 := by
        rw [List.getD_eq_getElem?_getD, List.getElem?_drop, Nat.add_zero,
          ← List.getD_eq_getElem?_getD, e2]
        exact hget _ (by omega)
      have ha := hmem (d.length - 1) (by omega)
      rw [hlast, pack_single_nat _ _ ha.1]
      unfold payload_byte
      rw [if_neg h1]
      have hlt := nibbles_lt (d.getD (d.length - 1) 0 - m) (by omega) 0 (by omega)
      rw [Nat.or_zero] at hlt
      rw [Nat.mod_eq_of_lt hlt]
  · rw [if_neg hodd, List.append_nil]
    have e1 : (d.length + 1) / 2 = d.length / 2 := by omega
    rw [e1]
    apply List.map_congr_left
    intro k hk
    exact hpairs k (List.mem_range.mp hk)

/-! ## The greedy partition -/

theorem calls_from_greedy (d : List Nat) : ∀ (n mn mx s i : Nat),
    i + n = d.length → s ≤ i → s < d.length →
    (i = s → mn = d.getD i 0 ∧ mx = d.getD i 0) →
    (∀ k, s ≤ k → k < i → mn ≤ d.getD k 0 ∧ d.getD k 0 ≤ mx) →
    (s < i → ∃ k, s ≤ k ∧ k < i ∧ d.getD k 0 = mn) →
    (s < i → ∃ k, s ≤ k ∧ k < i ∧ d.getD k 0 = mx) →
    mx ≤ mn + 15 →
    covers s (calls_from d n mn mx s i) d.length ∧
    (∀ c ∈ calls_from d n mn mx s i, ∀ j k, c.start ≤ j → j < c.start + c.len →
      c.start ≤ k → k < c.start + c.len → d.getD j 0 ≤ d.getD k 0 + 15) ∧
    (∀ c ∈ calls_from d n mn mx s i, c.start + c.len < d.length →
      ∃ j k, c.start ≤ j ∧ j ≤ c.start + c.len ∧ c.start ≤ k ∧ k ≤ c.start + c.len ∧
        d.getD j 0 + 15 < d.getD k 0)
  | 0, mn, mx, s, i, hn, hsi, hs, _, hbd, _, _, hw => by
      simp only [calls_from, List.mem_singleton, forall_eq, covers]
      refine ⟨⟨trivial, by omega, by omega⟩, ?_, ?_⟩
      · intro j k hj1 hj2 hk1 hk2
        have h1 := hbd j hj1 (by omega)
        have h2 := hbd k hk1 (by omega)
        omega
      · intro h
        omega
  | n + 1, mn, mx, s, i, hn, hsi, hs, hinit, hbd, hmn, hmx, hw => by
      simp only [calls_from]
      have hmn' : ∃ k, s ≤ k ∧ k < i + 1 ∧
          d.getD k 0 = (if d.getD i 0 < mn then d.getD i 0 else mn) := by
        by_cases hc : d.getD i 0 < mn
        · rw [if_pos hc]
          exact ⟨i, hsi, by omega, rfl⟩
        · rw [if_neg hc]
          by_cases hlt : s < i
          · obtain ⟨k, h1, h2, h3⟩ := hmn hlt
            exact ⟨k, h1, by omega, h3⟩
          · have : i = s := by omega
            exact ⟨i, hsi, by omega, (hinit this).1.symm⟩
      have hmx' : ∃ k, s ≤ k ∧ k < i + 1 ∧
          d.getD k 0 = (if d.getD i 0 > mx then d.getD i 0 else mx) := by
        by_cases hc : d.getD i 0 > mx
        · rw [if_pos hc]
          exact ⟨i, hsi, by omega, rfl⟩
        · rw [if_neg hc]
          by_cases hlt : s < i
          · obtain ⟨k, h1, h2, h3⟩ := hmx hlt
            exact ⟨k, h1, by omega, h3⟩
          · have : i = s := by omega
            exact ⟨i, hsi, by omega, (hinit this).2.symm⟩
      by_cases hb : (if d.getD i 0 < mn then d.getD i 0 else mn) + 15 <
          (if d.getD i 0 > mx then d.getD i 0 else mx)
      · rw [if_pos hb]
        have hlt : s < i := by
          by_contra hcon
          have : i = s := by omega
          obtain ⟨e1, e2⟩ := hinit this
          rw [e1, e2] at hb
          simp at hb
        have ih := calls_from_greedy d n (d.getD i 0) (d.getD i 0) i (i + 1) (by omega)
          (by omega) (by omega) (fun h => by omega)
          (fun k h1 h2 => by
            have : k = i := by omega
            subst this
            exact ⟨le_refl _, le_refl _⟩)
          (fun _ => ⟨i, le_refl _, by omega, rfl⟩)
          (fun _ => ⟨i, le_refl _, by omega, rfl⟩) (by omega)
        obtain ⟨ih1, ih2, ih3⟩ := ih
        have hend : s + (i - s) = i := by omega
        refine ⟨?_, ?_, ?_⟩
        · simp only [covers]
          rw [hend]
          exact ⟨trivial, by omega, ih1⟩
        · intro c hc
          rcases List.mem_cons.mp hc with rfl | hc
          · intro j k hj1 hj2 hk1 hk2
            simp only at hj1 hj2 hk1 hk2
            have h1 := hbd j hj1 (by omega)
            have h2 := hbd k hk1 (by omega)
            omega
          · exact ih2 c hc
        · intro c hc
          rcases List.mem_cons.mp hc with rfl | hc
          · intro _
            simp only
            obtain ⟨k1, a1, a2, a3⟩ := hmn'
            obtain ⟨k2, b1, b2, b3⟩ := hmx'
            refine ⟨k1, k2, a1, by omega, b1, by omega, ?_⟩
            rw [a3, b3]
            exact hb
          · exact ih3 c hc
      · rw [if_neg hb]
        exact calls_from_greedy d n _ _ s (i + 1) (by omega) (by omega) hs
          (fun h => by omega)
          (fun k h1 h2 => by
            by_cases hk : k < i
            · have := hbd k h1 hk
              constructor <;> split <;> omega
            · have : k = i := by omega
              subst this
              constructor <;> split <;> omega)
          (fun _ => hmn') (fun _ => hmx') (by omega)

theorem encode_calls_greedy (d : List Nat) (h : d ≠ []) :
    covers 0 (encode_calls d) d.length ∧
    (∀ c ∈ encode_calls d, ∀ j k, c.start ≤ j → j < c.start + c.len →
      c.start ≤ k → k < c.start + c.len → d.getD j 0 ≤ d.getD k 0 + 15) ∧
    (∀ c ∈ encode_calls d, c.start + c.len < d.length →
      ∃ j k, c.start ≤ j ∧ j ≤ c.start + c.len ∧ c.start ≤ k ∧ k ≤ c.start + c.len ∧
        d.getD j 0 + 15 < d.getD k 0) := by
  have hlen : d.length ≠ 0 := by
    intro h0
    exact h (List.length_eq_zero.mp h0)
  unfold encode_calls
  rw [if_neg hlen]
  exact calls_from_greedy d d.length (d.getD 0 0) (d.getD 0 0) 0 0 (by omega) (le_refl _)
    (by omega) (fun _ => ⟨rfl, rfl⟩) (fun k h1 h2 => by omega) (fun h => by omega)
    (fun h => by omega) (by omega)

/-! ## Records of an encoded line -/

theorem calls_bytes_inner (d : List Nat) (cs : List StretchCall) :
    calls_bytes d cs =
      (cs.flatMap (fun c => (chunk_lengths c.len c.len).map (fun l =>
        ({ start := c.start, len := l % 256, min := c.min } : InnerCall)))).flatMap
        (fun c => record (d.drop c.start) c.len c.min) := by
  unfold calls_bytes stretch_bytes
  rw [List.flatMap_assoc]
  congr 1
  funext c
  rw [List.flatMap_map]

theorem encode_output_records (d : List Nat) (out : Buf) :
    encode_output d out =
      (inner_calls d).flatMap (fun c => record (d.drop c.start) c.len c.min) := by
  rw [encode_output_eq, calls_bytes_inner]
  rfl

theorem record_shape (data : List Nat) (L m : Nat) :
    record data L m =
      u8 (Int.lor (ENCODED_BIT : Int) (m : Int)) :: L :: (record data L m).drop 2 ∧
    ((record data L m).drop 2).length = (L + 1) / 2 := by
  constructor
  · simp [record]
  · rw [List.length_drop, record_length]
    omega

theorem parse_records_cons (fuel h L : Nat) (p tail : List Nat) (hp : p.length = (L + 1) / 2) :
    parse_records (fuel + 1) (h :: L :: (p ++ tail)) =
      (parse_records fuel tail).map
        (fun rs => { header := h, length := L, payload := p } :: rs) := by
  simp only [parse_records, List.length_append]
  rw [if_pos (by omega), ← hp, List.drop_left, List.take_left]

theorem parse_records_flatMap (d : List Nat) : ∀ (ics : List InnerCall) (fuel : Nat),
    ics.length ≤ fuel →
    parse_records fuel (ics.flatMap (fun c => record (d.drop c.start) c.len c.min)) =
      some (ics.map (call_record d))
  | [], fuel, _ => by
      cases fuel <;> simp [parse_records]
  | c :: ics, 0, h => by simp at h
  | c :: ics, fuel + 1, h => by
      obtain ⟨h1, h2⟩ := record_shape (d.drop c.start) c.len c.min
      have e : (c :: ics).flatMap (fun c => record (d.drop c.start) c.len c.min) =
          u8 (Int.lor (ENCODED_BIT : Int) (c.min : Int)) :: c.len ::
            ((record (d.drop c.start) c.len c.min).drop 2 ++
              ics.flatMap (fun c => record (d.drop c.start) c.len c.min)) := by
        rw [List.flatMap_cons]
        nth_rewrite 1 [h1]
        rfl
      rw [e, parse_records_cons _ _ _ _ _ h2,
        parse_records_flatMap d ics fuel (by simpa using h)]
      simp [call_record]

theorem chunk_lengths_sum : ∀ (fuel length : Nat), length ≤ fuel →
    (chunk_lengths fuel length).sum = length ∧
    ∀ l ∈ chunk_lengths fuel length, 1 ≤ l ∧ l ≤ 255
  | 0, length, h => by
      simp [chunk_lengths]
      omega
  | fuel + 1, length, h => by
      unfold chunk_lengths
      by_cases hpos : length > 0
      · rw [if_pos hpos]
        by_cases hbig : length > UINT8_MAX
        · simp only [if_pos hbig, List.sum_cons, List.mem_cons]
          simp only [UINT8_MAX] at hbig ⊢
          obtain ⟨ih1, ih2⟩ := chunk_lengths_sum fuel (length - 255) (by omega)
          refine ⟨by omega, ?_⟩
          intro l hl
          rcases hl with rfl | hl
          · omega
          · exact ih2 l hl
        · simp only [if_neg hbig, List.sum_cons, List.mem_cons, Nat.sub_self]
          simp only [UINT8_MAX] at hbig
          obtain ⟨ih1, ih2⟩ := chunk_lengths_sum fuel 0 (by omega)
          refine ⟨by omega, ?_⟩
          intro l hl
          rcases hl with rfl | hl
          · omega
          · exact ih2 l hl
      · rw [if_neg hpos]
        simp
        omega

theorem covers_sum : ∀ (cs : List StretchCall) (a b : Nat), covers a cs b →
    a + (cs.map (fun c => c.len)).sum = b
  | [], a, b, h => by simpa [covers] using h
  | c :: cs, a, b, h => by
      simp only [covers] at h
      have := covers_sum cs (a + c.len) b h.2.2
      simp only [List.map_cons, List.sum_cons]
      omega

theorem covers_pos : ∀ (cs : List StretchCall) (a b : Nat), covers a cs b →
    ∀ c ∈ cs, 0 < c.len
  | [], _, _, _ => by simp
  | c :: cs, a, b, h => by
      simp only [covers] at h
      intro x hx
      rcases List.mem_cons.mp hx with rfl | hx
      · exact h.2.1
      · exact covers_pos cs (a + c.len) b h.2.2 x hx

theorem encode_calls_covers (d : List Nat) : covers 0 (encode_calls d) d.length := by
  by_cases h : d = []
  · subst h
    simp [encode_calls, covers]
  · exact (encode_calls_greedy d h).1

theorem chunk_calls_len_sum (c : StretchCall) :
    (((chunk_lengths c.len c.len).map (fun l =>
      ({ start := c.start, len := l % 256, min := c.min } : InnerCall))).map
        (fun x => x.len)).sum = c.len := by
  obtain ⟨h1, h2⟩ := chunk_lengths_sum c.len c.len (le_refl _)
  rw [List.map_map]
  have : (chunk_lengths c.len c.len).map
      ((fun x : InnerCall => x.len) ∘ (fun l =>
        ({ start := c.start, len := l % 256, min := c.min } : InnerCall))) =
      (chunk_lengths c.len c.len).map id := by
    apply List.map_congr_left
    intro l hl
    have := h2 l hl
    simp only [Function.comp, id]
    omega
  rw [this, List.map_id, h1]

theorem flatMap_len_sum : ∀ (cs : List StretchCall),
    ((cs.flatMap (fun c => (chunk_lengths c.len c.len).map (fun l =>
      ({ start := c.start, len := l % 256, min := c.min } : InnerCall)))).map
        (fun x => x.len)).sum = (cs.map (fun c => c.len)).sum
  | [] => by simp
  | c :: cs => by
      rw [List.flatMap_cons, List.map_append, List.sum_append, chunk_calls_len_sum,
        flatMap_len_sum cs, List.map_cons, List.sum_cons]

theorem inner_calls_len_sum (d : List Nat) :
    ((inner_calls d).map (fun c => c.len)).sum = d.length := by
  unfold inner_calls
  rw [flatMap_len_sum]
  have := covers_sum _ _ _ (encode_calls_covers d)
  omega

theorem inner_calls_len_bounds (d : List Nat) :
    ∀ c ∈ inner_calls d, 1 ≤ c.len ∧ c.len ≤ 255 := by
  intro c hc
  unfold inner_calls at hc
  obtain ⟨sc, _, hc2⟩ := List.mem_flatMap.mp hc
  obtain ⟨l, hl, rfl⟩ := List.mem_map.mp hc2
  have := (chunk_lengths_sum sc.len sc.len (le_refl _)).2 l hl
  simp only
  omega

theorem records_length_ge (d : List Nat) : ∀ (ics : List InnerCall),
    ics.length ≤ (ics.flatMap (fun c => record (d.drop c.start) c.len c.min)).length
  | [] => by simp
  | c :: ics => by
      have := records_length_ge d ics
      rw [List.flatMap_cons, List.length_append, record_length, List.length_cons]
      omega

theorem records_length_sum (d : List Nat) : ∀ (ics : List InnerCall),
    (ics.flatMap (fun c => record (d.drop c.start) c.len c.min)).length =
      (ics.map (fun c => 2 + c.len / 2 + c.len % 2)).sum
  | [] => by simp
  | c :: ics => by
      rw [List.flatMap_cons, List.length_append, record_length, records_length_sum d ics,
        List.map_cons, List.sum_cons]

theorem parse_encode_output (d : List Nat) (out : Buf) :
    parse_records (encode_output d out).length (encode_output d out) =
      some ((inner_calls d).map (call_record d)) := by
  rw [encode_output_records]
  exact parse_records_flatMap d _ _ (records_length_ge d _)

theorem encode_size (d : List Nat) (out : Buf) :
    (encode d out).2 = ((inner_calls d).map (fun c => 2 + c.len / 2 + c.len % 2)).sum := by
  rw [encode_eq, calls_bytes_inner]
  exact records_length_sum d _
/-! ## Lines within one window, and the worst case -/

theorem calls_from_single (d : List Nat) (hwin : ∀ x ∈ d, ∀ y ∈ d, x ≤ y + 15) :
    ∀ (n mn mx s i : Nat), i + n = d.length → mn ∈ d → mx ∈ d →
    ∃ m, calls_from d n mn mx s i = [{ start := s, len := d.length - s, min := m }]
  | 0, mn, mx, s, i, _, _, _ => ⟨mn, by simp [calls_from]⟩
  | n + 1, mn, mx, s, i, hn, hmn, hmx => by
      have hc : d.getD i 0 ∈ d := by
        rw [List.getD_eq_getElem d 0 (by omega)]
        exact List.getElem_mem _
      have hmn' : (if d.getD i 0 < mn then d.getD i 0 else mn) ∈ d := by
        split
        · exact hc
        · exact hmn
      have hmx' : (if d.getD i 0 > mx then d.getD i 0 else mx) ∈ d := by
        split
        · exact hc
        · exact hmx
      have hno : ¬ ((if d.getD i 0 < mn then d.getD i 0 else mn) + 15 <
          (if d.getD i 0 > mx then d.getD i 0 else mx)) := by
        have := hwin _ hmx' _ hmn'
        omega
      simp only [calls_from]
      rw [if_neg hno]
      exact calls_from_single d hwin n _ _ s (i + 1) (by omega) hmn' hmx'

theorem encode_calls_single (d : List Nat) (hN : 1 ≤ d.length)
    (hwin : ∀ x ∈ d, ∀ y ∈ d, x ≤ y + 15) :
    ∃ m, encode_calls d = [{ start := 0, len := d.length, min := m }] := by
  have h0 : d.getD 0 0 ∈ d := by
    rw [List.getD_eq_getElem d 0 (by omega)]
    exact List.getElem_mem _
  unfold encode_calls
  rw [if_neg (by omega)]
  exact calls_from_single d hwin d.length _ _ 0 0 (by omega) h0 h0

theorem chunk_lengths_closed : ∀ (fuel length : Nat), length ≤ fuel → 1 ≤ length →
    chunk_lengths fuel length =
      List.replicate ((length + 254) / 255 - 1) 255 ++
        [length - 255 * ((length + 254) / 255 - 1)]
  | 0, length, h, h1 => by omega
  | fuel + 1, length, h, h1 => by
      unfold chunk_lengths
      rw [if_pos (by omega)]
      by_cases hbig : length > UINT8_MAX
      · simp only [if_pos hbig]
        simp only [UINT8_MAX] at hbig ⊢
        rw [chunk_lengths_closed fuel (length - 255) (by omega) (by omega)]
        have e1 : (length + 254) / 255 - 1 = ((length - 255 + 254) / 255 - 1) + 1 := by omega
        have e2 : length - 255 * (((length - 255 + 254) / 255 - 1) + 1) =
            length - 255 - 255 * ((length - 255 + 254) / 255 - 1) := by omega
        rw [e1, e2, List.replicate_succ, List.cons_append]
      · simp only [if_neg hbig, Nat.sub_self]
        simp only [UINT8_MAX] at hbig
        have e1 : (length + 254) / 255 - 1 = 0 := by omega
        have e3 : chunk_lengths fuel 0 = [] := by
          cases fuel <;> simp [chunk_lengths]
        rw [e1, e3]
        simp

theorem sizes_le (ics : List InnerCall) (h : ∀ c ∈ ics, 1 ≤ c.len) :
    (ics.map (fun c => 2 + c.len / 2 + c.len % 2)).sum ≤
      3 * (ics.map (fun c => c.len)).sum := by
  induction ics with
  | nil => simp
  | cons c ics ih =>
      have h1 := h c (List.mem_cons_self _ _)
      have h2 := ih (fun x hx => h x (List.mem_cons_of_mem _ hx))
      simp only [List.map_cons, List.sum_cons]
      omega

theorem sizes_eq (ics : List InnerCall) (h : ∀ c ∈ ics, c.len = 1) :
    (ics.map (fun c => 2 + c.len / 2 + c.len % 2)).sum =
      3 * (ics.map (fun c => c.len)).sum := by
  induction ics with
  | nil => simp
  | cons c ics ih =>
      have h1 := h c (List.mem_cons_self _ _)
      have h2 := ih (fun x hx => h x (List.mem_cons_of_mem _ hx))
      simp only [List.map_cons, List.sum_cons]
      omega

theorem alternating_length (n : Nat) : (alternating n).length = n := by
  simp [alternating]

theorem alternating_getD (n i : Nat) (h : i < n) :
    (alternating n).getD i 0 = if i % 2 = 0 then 0 else 16 := by
  simp [alternating, List.getD_eq_getElem?_getD, List.getElem?_map, List.getElem?_range h]

theorem calls_from_alternating (N : Nat) : ∀ (n v s i : Nat), i + n = N → s + 1 = i →
    v = (alternating N).getD s 0 →
    ∀ c ∈ calls_from (alternating N) n v v s i, c.len = 1
  | 0, v, s, i, hn, hs, _ => by
      simp only [calls_from, List.mem_singleton, forall_eq, alternating_length]
      omega
  | n + 1, v, s, i, hn, hs, hv => by
      have hv' := alternating_getD N s (by omega)
      have hc := alternating_getD N i (by omega)
      have hb : (if (alternating N).getD i 0 < v then (alternating N).getD i 0 else v) + 15 <
          (if (alternating N).getD i 0 > v then (alternating N).getD i 0 else v) := by
        rw [hc, hv, hv']
        by_cases hpar : s % 2 = 0
        · have : ¬ (i % 2 = 0) := by omega
          simp [hpar, this]
        · have : i % 2 = 0 := by omega
          simp [hpar, this]
      simp only [calls_from]
      rw [if_pos hb]
      intro c hcm
      rcases List.mem_cons.mp hcm with rfl | hcm
      · simp only
        omega
      · exact calls_from_alternating N n _ i (i + 1) (by omega) rfl rfl c hcm

theorem encode_calls_alternating (N : Nat) : ∀ c ∈ encode_calls (alternating N), c.len = 1 := by
  unfold encode_calls
  by_cases h : (alternating N).length = 0
  · rw [if_pos h]
    simp
  · rw [if_neg h]
    rw [alternating_length] at h
    obtain ⟨n, rfl⟩ : ∃ n, N = n + 1 := ⟨N - 1, by omega⟩
    rw [alternating_length]
    simp only [calls_from]
    rw [if_neg (by simp)]
    simp only [lt_self_iff_false, if_false, gt_iff_lt]
    exact calls_from_alternating (n + 1) n _ 0 1 (by omega) rfl rfl

theorem inner_calls_alternating (N : Nat) : ∀ c ∈ inner_calls (alternating N), c.len = 1 := by
  intro c hc
  unfold inner_calls at hc
  obtain ⟨sc, hsc, hc2⟩ := List.mem_flatMap.mp hc
  have h1 := encode_calls_alternating N sc hsc
  rw [h1] at hc2
  simp [chunk_lengths, UINT8_MAX] at hc2
  rw [hc2]

/-! ## The caller and the variant without the raw copy -/

theorem encode_stretch_inner_nocopy_eq (data : List Nat) (out : Buf) (o : Nat)
    (length min : Nat) :
    encode_stretch_inner_nocopy data out o length min =
      (splice out o (record data length min), (record data length min).length) := by
  have hlen := record_length data length min
  unfold encode_stretch_inner_nocopy
  simp only [pair_loop_eq, store_eq_splice]
  have h1 := splice_append out o [u8 (Int.lor (ENCODED_BIT : Int) (min : Int))] [length]
  simp only [List.length_singleton] at h1
  rw [h1]
  have h2 := splice_append out o
    ([u8 (Int.lor (ENCODED_BIT : Int) (min : Int))] ++ [length]) (pair_bytes min length data)
  simp only [List.length_append, List.length_singleton] at h2
  rw [h2]
  by_cases hodd : length % 2 ≠ 0
  · rw [if_pos hodd]
    have h3 := splice_append out o
      ([u8 (Int.lor (ENCODED_BIT : Int) (min : Int))] ++ [length] ++ pair_bytes min length data)
      [pack_single ((data.drop (2 * (length / 2))).getD 0 0) min]
    simp only [List.length_append, List.length_singleton, pair_bytes_length] at h3
    have e : o + 2 + length / 2 = o + (1 + 1 + length / 2) := by omega
    rw [e, h3, hlen]
    have hrec : record data length min =
        [u8 (Int.lor (ENCODED_BIT : Int) (min : Int))] ++ [length] ++
          pair_bytes min length data ++
          [pack_single ((data.drop (2 * (length / 2))).getD 0 0) min] := by
      unfold record
      rw [if_pos hodd]
      simp
    rw [← hrec]
    congr 1
    omega
  · rw [if_neg hodd]
    have hrec : record data length min =
        [u8 (Int.lor (ENCODED_BIT : Int) (min : Int))] ++ [length] ++
          pair_bytes min length data := by
      unfold record
      rw [if_neg hodd]
      simp
    rw [← hrec, hlen]
    congr 1
    omega

theorem splice_inside (out : Buf) (p : Nat) (l : List Nat) (j : Nat)
    (h1 : p ≤ j) (h2 : j < p + l.length) : splice out p l j = l.getD (j - p) 0 := by
  unfold splice
  rw [if_pos ⟨h1, h2⟩]

theorem main_loop_some : ∀ (lines : List (List Nat)) (out_buffer : Buf)
    (stdout result : List Nat), main_loop lines out_buffer stdout = some result →
    result = stdout ++ lines.flatMap (fun line =>
      calls_bytes (line.take (line.length - 1)) (encode_calls (line.take (line.length - 1))))
  | [], _, stdout, result, h => by
      simp only [main_loop, Option.some.injEq] at h
      simp [h]
  | line :: rest, out_buffer, stdout, result, h => by
      rw [main_loop] at h
      by_cases hfit : (encode (line.take (line.length - 1)) out_buffer).2 ≤ line.length
      · rw [if_pos hfit] at h
        have ih := main_loop_some rest _ _ result h
        have hw := encode_output_eq (line.take (line.length - 1)) out_buffer
        unfold encode_output at hw
        rw [ih, hw, List.flatMap_cons, List.append_assoc]
      · rw [if_neg hfit] at h
        exact absurd h (by simp)

theorem main_loop_fits : ∀ (lines : List (List Nat)) (out_buffer : Buf) (stdout : List Nat),
    (∀ line ∈ lines,
      (calls_bytes (line.take (line.length - 1))
        (encode_calls (line.take (line.length - 1)))).length ≤ line.length) →
    main_loop lines out_buffer stdout =
      some (stdout ++ lines.flatMap (fun line =>
        calls_bytes (line.take (line.length - 1)) (encode_calls (line.take (line.length - 1)))))
  | [], _, stdout, _ => by simp [main_loop]
  | line :: rest, out_buffer, stdout, hfit => by
      have h1 := hfit line (List.mem_cons_self _ _)
      have hsize : (encode (line.take (line.length - 1)) out_buffer).2 =
          (calls_bytes (line.take (line.length - 1))
            (encode_calls (line.take (line.length - 1)))).length := by
        rw [encode_eq]
      have hw := encode_output_eq (line.take (line.length - 1)) out_buffer
      unfold encode_output at hw
      rw [main_loop]
      rw [if_pos (by rw [hsize]; exact h1), hw,
        main_loop_fits rest _ _ (fun l hl => hfit l (List.mem_cons_of_mem _ hl)),
        List.flatMap_cons, List.append_assoc]

/-! ## Lines shifted by 128 -/

theorem getD_map_add (d : List Nat) (i : Nat) (h : i < d.length) :
    (d.map (fun b => b + 128)).getD i 0 = d.getD i 0 + 128 := by
  rw [List.getD_eq_getElem _ 0 (by simpa using h), List.getD_eq_getElem _ 0 h]
  simp

theorem pack_pair_add (a b m : Nat) : pack_pair (a + 128) (b + 128) (m + 128) = pack_pair a b m := by
  unfold pack_pair
  have e1 : ((a + 128 : Nat) : Int) - ((m + 128 : Nat) : Int) = (a : Int) - (m : Int) := by
    push_cast
    ring
  have e2 : ((b + 128 : Nat) : Int) - ((m + 128 : Nat) : Int) = (b : Int) - (m : Int) := by
    push_cast
    ring
  rw [e1, e2]

theorem pack_single_add (a m : Nat) : pack_single (a + 128) (m + 128) = pack_single a m := by
  unfold pack_single
  have e1 : ((a + 128 : Nat) : Int) - ((m + 128 : Nat) : Int) = (a : Int) - (m : Int) := by
    push_cast
    ring
  rw [e1]

theorem or_high_bit : ∀ m < 128, 0x80 ||| (m + 128) = 0x80 ||| m := by decide

theorem header_add (m : Nat) (h : m < 128) :
    u8 (Int.lor (ENCODED_BIT : Int) ((m + 128 : Nat) : Int)) =
      u8 (Int.lor (ENCODED_BIT : Int) (m : Int)) := by
  rw [int_lor_natCast, int_lor_natCast]
  have := or_high_bit m h
  simp only [ENCODED_BIT]
  rw [this]

theorem record_add (data : List Nat) (L m : Nat) (hL : L ≤ data.length) (hm : m < 128) :
    record (data.map (fun b => b + 128)) L (m + 128) = record data L m := by
  unfold record
  rw [header_add m hm, pair_bytes_eq_map, pair_bytes_eq_map]
  have hpairs : (List.range (L / 2)).map (fun k =>
      pack_pair ((data.map (fun b => b + 128)).getD (2 * k) 0)
        ((data.map (fun b => b + 128)).getD (2 * k + 1) 0) (m + 128)) =
      (List.range (L / 2)).map (fun k =>
        pack_pair (data.getD (2 * k) 0) (data.getD (2 * k + 1) 0) m) := by
    apply List.map_congr_left
    intro k hk
    have hk2 := List.mem_range.mp hk
    rw [getD_map_add data (2 * k) (by omega), getD_map_add data (2 * k + 1) (by omega),
      pack_pair_add]
  rw [hpairs]
  congr 1
  by_cases hodd : L % 2 ≠ 0
  · rw [if_pos hodd, if_pos hodd]
    have e1 : ∀ l : List Nat, (l.drop (2 * (L / 2))).getD 0 0 = l.getD (2 * (L / 2)) 0 := by
      intro l
      rw [List.getD_eq_getElem?_getD, List.getElem?_drop, Nat.add_zero,
        ← List.getD_eq_getElem?_getD]
    rw [e1, e1, getD_map_add data _ (by omega), pack_single_add]
  · rw [if_neg hodd, if_neg hodd]

theorem chunk_lengths_le : ∀ (fuel length : Nat), ∀ l ∈ chunk_lengths fuel length,
    l ≤ length ∧ l ≤ 255
  | 0, _ => by simp [chunk_lengths]
  | fuel + 1, length => by
      unfold chunk_lengths
      by_cases hpos : length > 0
      · rw [if_pos hpos]
        intro l hl
        rcases List.mem_cons.mp hl with rfl | hl
        · simp only [UINT8_MAX]
          split <;> omega
        · have := chunk_lengths_le fuel _ l hl
          omega
      · rw [if_neg hpos]
        simp

theorem stretch_bytes_add (data : List Nat) (len m : Nat) (hlen : len ≤ data.length)
    (hm : m < 128) :
    stretch_bytes (data.map (fun b => b + 128)) len (m + 128) = stretch_bytes data len m := by
  unfold stretch_bytes
  apply List.flatMap_congr
  intro l hl
  have := chunk_lengths_le len len l hl
  exact record_add data (l % 256) m (by omega) hm

theorem calls_from_add (d : List Nat) : ∀ (n mn mx s i : Nat), i + n = d.length →
    calls_from (d.map (fun b => b + 128)) n (mn + 128) (mx + 128) s i =
      (calls_from d n mn mx s i).map (fun c => { c with min := c.min + 128 })
  | 0, mn, mx, s, i, _ => by simp [calls_from]
  | n + 1, mn, mx, s, i, hn => by
      have hc := getD_map_add d i (by omega)
      have e1 : (if d.getD i 0 + 128 < mn + 128 then d.getD i 0 + 128 else mn + 128) =
          (if d.getD i 0 < mn then d.getD i 0 else mn) + 128 := by
        split <;> split <;> omega
      have e2 : (if d.getD i 0 + 128 > mx + 128 then d.getD i 0 + 128 else mx + 128) =
          (if d.getD i 0 > mx then d.getD i 0 else mx) + 128 := by
        split <;> split <;> omega
      simp only [calls_from]
      rw [hc, e1, e2]
      by_cases hb : (if d.getD i 0 < mn then d.getD i 0 else mn) + 15 <
          (if d.getD i 0 > mx then d.getD i 0 else mx)
      · rw [if_pos hb, if_pos (by omega), List.map_cons,
          calls_from_add d n _ _ i (i + 1) (by omega)]
      · rw [if_neg hb, if_neg (by omega)]
        exact calls_from_add d n _ _ s (i + 1) (by omega)

theorem calls_from_min_lt (d : List Nat) (hd : ∀ b ∈ d, b < 128) :
    ∀ (n mn mx s i : Nat), mn < 128 → ∀ c ∈ calls_from d n mn mx s i, c.min < 128
  | 0, mn, mx, s, i, hmn => by
      simp only [calls_from, List.mem_singleton, forall_eq]
      exact hmn
  | n + 1, mn, mx, s, i, hmn => by
      have hc : d.getD i 0 < 128 := by
        by_cases hi : i < d.length
        · rw [List.getD_eq_getElem d 0 hi]
          exact hd _ (List.getElem_mem hi)
        · rw [List.getD_eq_default d 0 (by omega)]
          omega
      have hmin : (if d.getD i 0 < mn then d.getD i 0 else mn) < 128 := by
        split <;> omega
      simp only [calls_from]
      by_cases hb : (if d.getD i 0 < mn then d.getD i 0 else mn) + 15 <
          (if d.getD i 0 > mx then d.getD i 0 else mx)
      · rw [if_pos hb]
        intro c hcm
        rcases List.mem_cons.mp hcm with rfl | hcm
        · exact hmin
        · exact calls_from_min_lt d hd n _ _ i (i + 1) hc c hcm
      · rw [if_neg hb]
        exact calls_from_min_lt d hd n _ _ s (i + 1) hmin

theorem covers_bound : ∀ (cs : List StretchCall) (a b : Nat), covers a cs b →
    ∀ c ∈ cs, c.start + c.len ≤ b
  | [], _, _, _ => by simp
  | c :: cs, a, b, h => by
      simp only [covers] at h
      have hsum := covers_sum cs (a + c.len) b h.2.2
      intro x hx
      rcases List.mem_cons.mp hx with rfl | hx
      · omega
      · exact covers_bound cs (a + c.len) b h.2.2 x hx

theorem encode_calls_add (d : List Nat) :
    encode_calls (d.map (fun b => b + 128)) =
      (encode_calls d).map (fun c => { c with min := c.min + 128 }) := by
  unfold encode_calls
  by_cases h : d.length = 0
  · rw [if_pos (by simpa using h), if_pos h]
    rfl
  · rw [if_neg (by simpa using h), if_neg h, List.length_map,
      getD_map_add d 0 (by omega)]
    exact calls_from_add d d.length _ _ 0 0 (by omega)

theorem encode_calls_min_lt (d : List Nat) (hd : ∀ b ∈ d, b < 128) :
    ∀ c ∈ encode_calls d, c.min < 128 := by
  unfold encode_calls
  by_cases h : d.length = 0
  · rw [if_pos h]
    simp
  · rw [if_neg h]
    have h0 : d.getD 0 0 < 128 := by
      rw [List.getD_eq_getElem d 0 (by omega)]
      exact hd _ (List.getElem_mem _)
    exact calls_from_min_lt d hd d.length _ _ 0 0 h0

theorem encode_output_add (d : List Nat) (out : Buf) (hd : ∀ b ∈ d, b < 128) :
    encode_output (d.map (fun b => b + 128)) out = encode_output d out := by
  rw [encode_output_eq, encode_output_eq, encode_calls_add]
  unfold calls_bytes
  rw [List.flatMap_map]
  apply List.flatMap_congr
  intro c hc
  have hb := covers_bound _ _ _ (encode_calls_covers d) c hc
  have hm := encode_calls_min_lt d hd c hc
  simp only
  rw [← List.map_drop]
  exact stretch_bytes_add (d.drop c.start) c.len c.min (by rw [List.length_drop]; omega) hm

/-! ## The claims -/

/-- C1 fails on the code. The line `[20, 0]` (both bytes below 128) is encoded as
`[0x80, 0x01, 0x40, 0x80, 0x01, 0x00]`: the range `[20]` is closed with the minimum
already lowered to the breaking byte 0, so its header holds 0 and its nibble is
`(20 << 4) mod 256 = 0x40`. Decoding gives `[4, 0]`, not `[20, 0]`. On the line
`[0, 0, 0, 20, 20, 20]`, whose break is upwards, decoding gives the line back. -/
theorem encode_roundtrip_descending_break (out : Buf) :
    (∀ b ∈ [20, 0], b < 128) ∧
    encode_output [20, 0] out = [0x80, 0x01, 0x40, 0x80, 0x01, 0x00] ∧
    decode (encode_output [20, 0] out).length (encode_output [20, 0] out) = [4, 0] ∧
    decode (encode_output [20, 0] out).length (encode_output [20, 0] out) ≠ [20, 0] ∧
    decode (encode_output [0, 0, 0, 20, 20, 20] out).length
      (encode_output [0, 0, 0, 20, 20, 20] out) = [0, 0, 0, 20, 20, 20] := by
  rw [encode_output_eq, encode_output_eq]
  decide

/-- C2 fails on the code. On the line `[20, 0]` the inner packer is called for the
byte 20 with minimum 0 (the minimum was lowered to the breaking byte before the range
was closed), so a packed byte lies 20 above the minimum of its record, and the stored
payload byte `0x40` has lost the value. -/
theorem encode_window_bound_violated (out : Buf) :
    inner_calls [20, 0] =
      [{ start := 0, len := 1, min := 0 }, { start := 1, len := 1, min := 0 }] ∧
    packed_bytes [20, 0] { start := 0, len := 1, min := 0 } = [20] ∧
    (∃ c ∈ inner_calls [20, 0], ∃ b ∈ packed_bytes [20, 0] c, ¬ (b - c.min ≤ 15)) ∧
    encode_output [20, 0] out =
      (inner_calls [20, 0]).flatMap (fun c => record (List.drop c.start [20, 0]) c.len c.min) ∧
    pack_single 20 0 = 0x40 := by
  refine ⟨by decide, by decide, ?_, encode_output_records [20, 0] out, by decide⟩
  exact ⟨{ start := 0, len := 1, min := 0 }, by decide, 20, by decide, by decide⟩

set_option maxRecDepth 100000 in
/-- C3 fails on the code. For the range of 255 zeros followed by a 1, of length 256,
with minimum 0, `encode_stretch` writes the record of the first 255 bytes and then
`[0x80, 0x01, 0x00]`: its second record packs `data[0] = 0` again, because the read
pointer is not advanced between iterations. The record of the second slice, which
holds `data[255] = 1`, is `[0x80, 0x01, 0x10]`. -/
theorem encode_stretch_second_chunk (out : Buf) (o : Nat) :
    (encode_stretch (List.replicate 255 0 ++ [1]) out o 256 0).2 = 133 ∧
    window (encode_stretch (List.replicate 255 0 ++ [1]) out o 256 0).1 o
        (encode_stretch (List.replicate 255 0 ++ [1]) out o 256 0).2 =
      record (List.replicate 255 0) 255 0 ++ [0x80, 0x01, 0x00] ∧
    slice_records 256 (List.replicate 255 0 ++ [1]) 256 0 =
      record (List.replicate 255 0) 255 0 ++ [0x80, 0x01, 0x10] ∧
    window (encode_stretch (List.replicate 255 0 ++ [1]) out o 256 0).1 o
        (encode_stretch (List.replicate 255 0 ++ [1]) out o 256 0).2 ≠
      slice_records 256 (List.replicate 255 0 ++ [1]) 256 0 := by
  rw [encode_stretch_eq, window_splice]
  refine ⟨?_, ?_⟩
  · show (stretch_bytes (List.replicate 255 0 ++ [1]) 256 0).length = 133
    decide
  · decide
/-- C4. For a slice `d` of at most 255 bytes found at the read pointer (whatever
follows it) and a minimum `m` with every byte of `d` in `[m, m+15]`,
`encode_stretch_inner` returns `2 + ceil(L/2)` and writes exactly the bytes
`[0x80 | m, L]` followed by the `ceil(L/2)` payload bytes of `payload_byte`, from its
output pointer on; no other cell of the memory changes. -/
theorem encode_stretch_inner_format (d rest : List Nat) (m : Nat) (out : Buf) (o : Nat)
    (hm : m < 256) (_hlen : d.length ≤ 255) (hwin : ∀ b ∈ d, m ≤ b ∧ b ≤ m + 15) :
    (encode_stretch_inner (d ++ rest) out o d.length m).2 = 2 + (d.length + 1) / 2 ∧
    window (encode_stretch_inner (d ++ rest) out o d.length m).1 o
        (encode_stretch_inner (d ++ rest) out o d.length m).2 =
      [0x80 ||| m, d.length] ++ (List.range ((d.length + 1) / 2)).map (payload_byte d m) ∧
    ∀ j, j < o ∨ o + (encode_stretch_inner (d ++ rest) out o d.length m).2 ≤ j →
      (encode_stretch_inner (d ++ rest) out o d.length m).1 j = out j := by
  rw [encode_stretch_inner_eq]
  refine ⟨?_, ?_, ?_⟩
  · simp only [record_length]
    omega
  · simp only [window_splice]
    rw [record_payload d rest m hwin, header_nat m hm]
  · intro j hj
    exact splice_outside out o _ j hj

/-- C4, at the two inputs of the specification: `[5, 20]` with minimum 5 gives
`[0x85, 0x02, 0x0F]`, and `[3]` with minimum 3 gives `[0x83, 0x01, 0x00]`. -/
theorem encode_stretch_inner_format_witness :
    (5 < 256 ∧ [5, 20].length ≤ 255 ∧ (∀ b ∈ [5, 20], 5 ≤ b ∧ b ≤ 5 + 15)) ∧
    window (encode_stretch_inner ([5, 20] ++ []) (fun _ => 0) 0 [5, 20].length 5).1 0
        (encode_stretch_inner ([5, 20] ++ []) (fun _ => 0) 0 [5, 20].length 5).2 =
      [0x85, 0x02, 0x0F] ∧
    window (encode_stretch_inner ([3] ++ []) (fun _ => 0) 0 [3].length 3).1 0
        (encode_stretch_inner ([3] ++ []) (fun _ => 0) 0 [3].length 3).2 =
      [0x83, 0x01, 0x00] :=
  ⟨⟨by decide, by decide, by decide⟩,
   (encode_stretch_inner_format [5, 20] [] 5 (fun _ => 0) 0 (by decide) (by decide)
      (by decide)).2.1.trans (by decide),
   (encode_stretch_inner_format [3] [] 3 (fun _ => 0) 0 (by decide) (by decide)
      (by decide)).2.1.trans (by decide)⟩
/-- C5. For a non-empty line `d`, the ranges that `encode` hands to `encode_stretch`
(the output being what `encode_stretch` writes for them, in order) form the greedy
left-to-right partition: they are non-empty, in order, end to end, and cover
`[0, N)`; within each range any two bytes differ by at most 15; and each range closed
before the end of the line, extended by the byte that follows it, holds two bytes
that differ by more than 15. -/
theorem encode_greedy_partition (d : List Nat) (h : d ≠ []) :
    (∀ out, encode_output d out = calls_bytes d (encode_calls d)) ∧
    covers 0 (encode_calls d) d.length ∧
    (∀ c ∈ encode_calls d, ∀ j k, c.start ≤ j → j < c.start + c.len →
      c.start ≤ k → k < c.start + c.len → d.getD j 0 ≤ d.getD k 0 + 15) ∧
    (∀ c ∈ encode_calls d, c.start + c.len < d.length →
      ∃ j k, c.start ≤ j ∧ j ≤ c.start + c.len ∧ c.start ≤ k ∧ k ≤ c.start + c.len ∧
        d.getD j 0 + 15 < d.getD k 0) :=
  ⟨fun out => encode_output_eq d out, encode_calls_greedy d h⟩

/-- C5, at the input of the specification: `[0,0,0,20,20,20]` gives a stretch of
length 3 with minimum 0, then a stretch of length 3 with minimum 20, and the output
`[0x80,0x03,0x00,0x00,0x94,0x03,0x00,0x00]`. -/
theorem encode_greedy_partition_witness :
    [0, 0, 0, 20, 20, 20] ≠ [] ∧
    encode_calls [0, 0, 0, 20, 20, 20] =
      [{ start := 0, len := 3, min := 0 }, { start := 3, len := 3, min := 20 }] ∧
    encode_output [0, 0, 0, 20, 20, 20] (fun _ => 0) =
      [0x80, 0x03, 0x00, 0x00, 0x94, 0x03, 0x00, 0x00] ∧
    covers 0 (encode_calls [0, 0, 0, 20, 20, 20]) 6 :=
  ⟨by decide, by decide, by decide,
   (encode_greedy_partition [0, 0, 0, 20, 20, 20] (by decide)).2.1⟩

/-- C6. For every line of length `N`, the output of `encode` reads back as a
sequence of records (2-byte header, then `ceil(length/2)` payload bytes) that ends
exactly with the output, and the length fields of the records sum to `N`. -/
theorem encode_coverage (d : List Nat) (out : Buf) :
    ∃ recs, parse_records (encode_output d out).length (encode_output d out) = some recs ∧
      (recs.map (fun r => r.length)).sum = d.length := by
  refine ⟨_, parse_encode_output d out, ?_⟩
  rw [List.map_map]
  exact inner_calls_len_sum d

/-- C7. For every line, the output of `encode` reads back as records whose length
fields all lie in `[1, 255]`; every call of the inner packer has a length in
`[1, 255]`, never 0; and every range handed to `encode_stretch` has length at
least 1. -/
theorem encode_length_bound (d : List Nat) (out : Buf) :
    (∃ recs, parse_records (encode_output d out).length (encode_output d out) = some recs ∧
      ∀ r ∈ recs, 1 ≤ r.length ∧ r.length ≤ 255) ∧
    (∀ c ∈ inner_calls d, 1 ≤ c.len ∧ c.len ≤ 255) ∧
    (∀ c ∈ encode_calls d, 1 ≤ c.len) := by
  refine ⟨⟨_, parse_encode_output d out, ?_⟩, inner_calls_len_bounds d, ?_⟩
  · intro r hr
    obtain ⟨c, hc, rfl⟩ := List.mem_map.mp hr
    exact inner_calls_len_bounds d c hc
  · exact covers_pos _ _ _ (encode_calls_covers d)

/-- C8. For a slice length `L` in `0..255`, whatever the data, the minimum and the
memory, `encode_stretch_inner` returns `2 + L/2 + L%2`, which is `2 + ceil(L/2)`; and
the return value of `encode` on a line is the sum of `2 + ceil(L_k/2)` over the
length fields `L_k` of the records of its output. -/
theorem encode_record_sizing (data : List Nat) (out : Buf) (o L m : Nat) (_hL : L ≤ 255)
    (d : List Nat) (out0 : Buf) :
    (encode_stretch_inner data out o L m).2 = 2 + L / 2 + L % 2 ∧
    2 + L / 2 + L % 2 = 2 + (L + 1) / 2 ∧
    ∃ recs, parse_records (encode_output d out0).length (encode_output d out0) = some recs ∧
      (encode d out0).2 = (recs.map (fun r => 2 + (r.length + 1) / 2)).sum := by
  refine ⟨?_, by omega, _, parse_encode_output d out0, ?_⟩
  · rw [encode_stretch_inner_eq]
    exact record_length data L m
  · rw [encode_size, List.map_map]
    congr 1
    apply List.map_congr_left
    intro c _
    simp only [Function.comp, call_record]
    omega

/-- C8, at a slice of length 3 and the line `[0, 0, 0, 20, 20, 20]`. -/
theorem encode_record_sizing_witness :
    3 ≤ 255 ∧
    (encode_stretch_inner [7, 8, 9] (fun _ => 0) 0 3 7).2 = 2 + 3 / 2 + 3 % 2 ∧
    (encode [0, 0, 0, 20, 20, 20] (fun _ => 0)).2 = 8 :=
  ⟨by decide,
   (encode_record_sizing [7, 8, 9] (fun _ => 0) 0 3 7 (by decide) [0, 0, 0, 20, 20, 20]
      (fun _ => 0)).1,
   by decide⟩

/-- C9. For a line of length `N >= 1` whose bytes all lie within one 16-value window,
the output of `encode` reads back as exactly `ceil(N/255)` records, every record but
the last with length field 255 and the last with `N - 255*(ceil(N/255)-1)`. -/
theorem encode_boundary_split (d : List Nat) (out : Buf) (hN : 1 ≤ d.length)
    (hwin : ∀ x ∈ d, ∀ y ∈ d, x ≤ y + 15) :
    ∃ recs, parse_records (encode_output d out).length (encode_output d out) = some recs ∧
      recs.length = (d.length + 254) / 255 ∧
      recs.map (fun r => r.length) =
        List.replicate ((d.length + 254) / 255 - 1) 255 ++
          [d.length - 255 * ((d.length + 254) / 255 - 1)] := by
  have hlens : (List.map (call_record d) (inner_calls d)).map (fun r => r.length) =
      List.replicate ((d.length + 254) / 255 - 1) 255 ++
        [d.length - 255 * ((d.length + 254) / 255 - 1)] := by
    obtain ⟨m, hm⟩ := encode_calls_single d hN hwin
    unfold inner_calls
    rw [hm]
    simp only [List.flatMap_cons, List.flatMap_nil, List.append_nil, List.map_map]
    rw [← chunk_lengths_closed d.length d.length (le_refl _) hN]
    have h2 := (chunk_lengths_sum d.length d.length (le_refl _)).2
    have : (chunk_lengths d.length d.length).map ((fun r : Record => r.length) ∘
        call_record d ∘ (fun l => ({ start := 0, len := l % 256, min := m } : InnerCall))) =
        (chunk_lengths d.length d.length).map id := by
      apply List.map_congr_left
      intro l hl
      have := h2 l hl
      simp only [Function.comp, call_record, id]
      omega
    rw [this, List.map_id]
  refine ⟨_, parse_encode_output d out, ?_, hlens⟩
  have := congrArg List.length hlens
  simp only [List.length_map, List.length_append, List.length_replicate,
    List.length_singleton] at this
  rw [List.length_map, this]
  omega

/-- C9, at a 256-byte line of identical bytes: two records, of lengths 255 and 1. -/
theorem encode_boundary_split_witness :
    (1 ≤ (List.replicate 256 7).length ∧
      ∀ x ∈ List.replicate 256 7, ∀ y ∈ List.replicate 256 7, x ≤ y + 15) ∧
    ∃ recs, parse_records (encode_output (List.replicate 256 7) (fun _ => 0)).length
        (encode_output (List.replicate 256 7) (fun _ => 0)) = some recs ∧
      recs.length = 2 ∧ recs.map (fun r => r.length) = [255, 1] := by
  have hN : 1 ≤ (List.replicate 256 7).length := by
    rw [List.length_replicate]
    decide
  have hwin : ∀ x ∈ List.replicate 256 7, ∀ y ∈ List.replicate 256 7, x ≤ y + 15 := by
    intro x hx y hy
    rw [List.eq_of_mem_replicate hx, List.eq_of_mem_replicate hy]
    omega
  obtain ⟨recs, h1, h2, h3⟩ :=
    encode_boundary_split (List.replicate 256 7) (fun _ => 0) hN hwin
  rw [List.length_replicate] at h2 h3
  exact ⟨⟨hN, hwin⟩, recs, h1, h2, h3⟩

/-- C10. For every line of length `N`, `encode` returns at most `3 * N`; and for every
`N` the line of length `N` that alternates 0 and 16 has all bytes below 256 and makes
`encode` return exactly `3 * N`. -/
theorem encode_worst_case (d : List Nat) (out : Buf) :
    (encode d out).2 ≤ 3 * d.length ∧
    ∀ N : Nat, (alternating N).length = N ∧ (∀ b ∈ alternating N, b < 256) ∧
      ∀ out0 : Buf, (encode (alternating N) out0).2 = 3 * N := by
  constructor
  · rw [encode_size, ← inner_calls_len_sum d]
    exact sizes_le _ (fun c hc => (inner_calls_len_bounds d c hc).1)
  · intro N
    refine ⟨alternating_length N, ?_, ?_⟩
    · intro b hb
      unfold alternating at hb
      obtain ⟨i, _, rfl⟩ := List.mem_map.mp hb
      split <;> omega
    · intro out0
      rw [encode_size, sizes_eq _ (inner_calls_alternating N), inner_calls_len_sum,
        alternating_length]

/-- C11. On a line of length 0, `encode` returns 0 and leaves the memory as it was:
no byte is written, and the encoded line is empty. -/
theorem encode_empty (out : Buf) :
    ([] : List Nat).length = 0 ∧ encode [] out = (out, 0) ∧ encode_output [] out = [] := by
  refine ⟨rfl, rfl, rfl⟩

/-- C12 fails on the code. For the file `abc` without a line terminator at its end,
`main` has an output buffer of `line_length = 3` bytes and encodes the only line with
`data_length = line_length - 1 = 2`: it writes `[0xE1, 0x02, 0x01]`, the encoding of
`ab` alone, within the buffer; the encoding of the whole line `abc` is
`[0xE1, 0x03, 0x01, 0x20]`. For the file `ab` followed by a terminator the two agree.
Whenever `main` runs without storing past its output buffer, it writes the
concatenation of the encodings of the lines, each without its last byte, terminator
or not. -/
theorem main_drops_last_byte (out_buffer : Buf) :
    split_lines [97, 98, 99] = [[97, 98, 99]] ∧
    main_output [97, 98, 99] out_buffer = some [0xE1, 0x02, 0x01] ∧
    lines_output [97, 98, 99] out_buffer = [0xE1, 0x03, 0x01, 0x20] ∧
    main_output [97, 98, 99] out_buffer ≠ some (lines_output [97, 98, 99] out_buffer) ∧
    main_output [97, 98, 10] out_buffer = some (lines_output [97, 98, 10] out_buffer) ∧
    ∀ file result : List Nat, main_output file out_buffer = some result →
      result = (split_lines file).flatMap (fun line => encode_output line.dropLast out_buffer) := by
  have e1 : main_output [97, 98, 99] out_buffer = some [0xE1, 0x02, 0x01] := by
    unfold main_output
    rw [main_loop_fits _ _ _ (by decide)]
    decide
  have e2 : lines_output [97, 98, 99] out_buffer = [0xE1, 0x03, 0x01, 0x20] := by
    unfold lines_output
    simp only [encode_output_eq]
    decide
  refine ⟨by decide, e1, e2, ?_, ?_, ?_⟩
  · rw [e1, e2]
    decide
  · unfold main_output lines_output
    rw [main_loop_fits _ _ _ (by decide)]
    simp only [encode_output_eq]
    decide
  · intro file result h
    have hfun : (fun line : List Nat => encode_output line.dropLast out_buffer) =
        (fun line : List Nat =>
          calls_bytes (line.take (line.length - 1))
            (encode_calls (line.take (line.length - 1)))) := by
      funext line
      rw [List.dropLast_eq_take]
      exact encode_output_eq _ out_buffer
    unfold main_output at h
    rw [main_loop_some _ _ _ _ h, hfun, List.nil_append]

/-- C13 fails on the code. For the line `a` followed by its terminator, `main` has an
output buffer of `line_length = 2` bytes and `encode` is called on `N = 1` byte: it
returns 3, more than `N + 1 = 2`, and stores the payload byte at index 2, past the
end of the buffer. -/
theorem encode_overruns_line_buffer (out : Buf) :
    split_lines [97, 10] = [[97, 10]] ∧
    (encode ([97, 10].take ([97, 10].length - 1)) out).2 = 3 ∧
    ¬ ((encode ([97, 10].take ([97, 10].length - 1)) out).2 ≤ [97, 10].length) ∧
    encode_output ([97, 10].take ([97, 10].length - 1)) out = [0xE1, 0x01, 0x00] ∧
    (encode ([97, 10].take ([97, 10].length - 1)) (fun _ => 0xFF)).1 2 = 0x00 := by
  refine ⟨by decide, ?_, ?_, ?_, by decide⟩
  · simp only [encode_eq]
    decide
  · simp only [encode_eq]
    decide
  · rw [encode_output_eq]
    decide

/-- C14. Header byte 0 of a record is `0x80 | minimum`, so the minima `m` and
`m + 128` (`m < 128`) give the same header byte `0x80 | m`; and for every line whose
bytes are all below 128, the line with 128 added to every byte (a different line
with bytes in `128..255`, when not empty) is encoded to the same bytes, of the same
size. -/
theorem encode_minimum_aliasing (d : List Nat) (out : Buf) (hd : ∀ b ∈ d, b < 128) :
    (∀ (data : List Nat) (o L m : Nat), m < 128 →
      (encode_stretch_inner data out o L m).1 o = 0x80 ||| m ∧
      (encode_stretch_inner data out o L (m + 128)).1 o = 0x80 ||| m) ∧
    (∀ b ∈ d.map (fun b => b + 128), 128 ≤ b ∧ b < 256) ∧
    encode_output (d.map (fun b => b + 128)) out = encode_output d out ∧
    (encode (d.map (fun b => b + 128)) out).2 = (encode d out).2 ∧
    (d ≠ [] → d.map (fun b => b + 128) ≠ d) := by
  have hout := encode_output_add d out hd
  refine ⟨?_, ?_, hout, ?_, ?_⟩
  · intro data o L m hm
    have hcell : ∀ x : Nat, (encode_stretch_inner data out o L x).1 o =
        u8 (Int.lor (ENCODED_BIT : Int) (x : Int)) := by
      intro x
      rw [encode_stretch_inner_eq]
      simp only
      rw [splice_inside out o _ o (le_refl _) (by rw [record_length]; omega)]
      simp [record]
    rw [hcell, hcell, header_add m hm, header_nat m (by omega)]
    exact ⟨rfl, rfl⟩
  · intro b hb
    obtain ⟨a, ha, rfl⟩ := List.mem_map.mp hb
    have := hd a ha
    omega
  · rw [encode_output_eq, encode_output_eq] at hout
    rw [encode_eq, encode_eq]
    simp only
    rw [hout]
  · intro hne heq
    cases d with
    | nil => exact hne rfl
    | cons a t =>
        simp only [List.map_cons, List.cons.injEq] at heq
        omega

/-- C14, at the line `[1, 2, 3, 30, 20]`: it and `[129, 130, 131, 158, 148]` are both
encoded as `[0x81, 0x03, 0x01, 0x20, 0x94, 0x02, 0xA0]`. -/
theorem encode_minimum_aliasing_witness :
    (∀ b ∈ [1, 2, 3, 30, 20], b < 128) ∧
    encode_output ([1, 2, 3, 30, 20].map (fun b => b + 128)) (fun _ => 0) =
      encode_output [1, 2, 3, 30, 20] (fun _ => 0) ∧
    encode_output [129, 130, 131, 158, 148] (fun _ => 0) =
      [0x81, 0x03, 0x01, 0x20, 0x94, 0x02, 0xA0] ∧
    encode_output [1, 2, 3, 30, 20] (fun _ => 0) =
      [0x81, 0x03, 0x01, 0x20, 0x94, 0x02, 0xA0] :=
  ⟨by decide,
   (encode_minimum_aliasing [1, 2, 3, 30, 20] (fun _ => 0) (by decide)).2.2.1,
   by decide, by decide⟩

/-- C15. For a slice length `L < 6`, whatever the data, the minimum, the memory and
the output pointer, `encode_stretch_inner` ends with the same memory and the same
returned size as its variant without the raw copy; every cell that the raw copy
writes (`o .. o+L-1`) lies among the cells of the record (`o .. o+size-1`) and holds,
at the end, the byte of the record that the header and nibble stores put there. -/
theorem encode_stretch_inner_copy_noop (data : List Nat) (out : Buf) (o L m : Nat)
    (hL : L < 6) :
    encode_stretch_inner data out o L m = encode_stretch_inner_nocopy data out o L m ∧
    ∀ j, o ≤ j → j < o + L →
      j < o + (encode_stretch_inner data out o L m).2 ∧
      (encode_stretch_inner data out o L m).1 j = (record data L m).getD (j - o) 0 ∧
      (encode_stretch_inner_nocopy data out o L m).1 j = (record data L m).getD (j - o) 0 := by
  rw [encode_stretch_inner_eq, encode_stretch_inner_nocopy_eq]
  refine ⟨rfl, ?_⟩
  intro j h1 h2
  have hlen := record_length data L m
  have h3 : j < o + (record data L m).length := by omega
  exact ⟨h3, splice_inside out o _ j h1 h3, splice_inside out o _ j h1 h3⟩

/-- C15, at the slice `[9, 8, 7, 6, 5]` of length 5 with minimum 5, in a memory of
`0xFF` bytes: with and without the raw copy the five cells end as
`[0x85, 0x05, 0x43, 0x21, 0x00]`. -/
theorem encode_stretch_inner_copy_noop_witness :
    5 < 6 ∧
    encode_stretch_inner [9, 8, 7, 6, 5] (fun _ => 0xFF) 0 5 5 =
      encode_stretch_inner_nocopy [9, 8, 7, 6, 5] (fun _ => 0xFF) 0 5 5 ∧
    window (encode_stretch_inner [9, 8, 7, 6, 5] (fun _ => 0xFF) 0 5 5).1 0 5 =
      [0x85, 0x05, 0x43, 0x21, 0x00] ∧
    window (memcpy (fun _ => 0xFF) 0 [9, 8, 7, 6, 5] 5) 0 5 = [9, 8, 7, 6, 5] :=
  ⟨by decide,
   (encode_stretch_inner_copy_noop [9, 8, 7, 6, 5] (fun _ => 0xFF) 0 5 5 (by decide)).1,
   by decide, by decide⟩

/-- C16. For every line and any two initial memories, `encode` returns the same size
`S`, leaves the same bytes in the cells below `S`, and leaves every cell from `S` on
as it was. -/
theorem encode_buffer_independent (d : List Nat) (out1 out2 : Buf) :
    (encode d out1).2 = (encode d out2).2 ∧
    (∀ j, j < (encode d out1).2 → (encode d out1).1 j = (encode d out2).1 j) ∧
    encode_output d out1 = encode_output d out2 ∧
    (∀ j, (encode d out1).2 ≤ j → (encode d out1).1 j = out1 j) := by
  rw [encode_output_eq, encode_output_eq, encode_eq, encode_eq]
  refine ⟨rfl, ?_, rfl, ?_⟩
  · intro j hj
    simp only at hj ⊢
    rw [splice_inside out1 0 _ j (Nat.zero_le _) (by omega),
      splice_inside out2 0 _ j (Nat.zero_le _) (by omega)]
  · intro j hj
    simp only at hj ⊢
    exact splice_outside out1 0 _ j (Or.inr (by omega))
end Diffcompress
